import Mathlib

/-!
Shallow embedding of the scheduling and clustering core of the repository
(app/scheduling.py, app/routes.py, app/clustering.py, app/improveclustering.py).

Times of day ("HH:MM" strings parsed with `datetime.strptime` in the source) are
modelled as minutes since midnight (`Nat`); every time actually stored in a
schedule entry in the source stays below 24:00 (it is bounded by some parsed
"HH:MM" value), so the strftime/strptime round trip is the identity and `Nat`
minutes are a faithful model.  Visit durations are whole hours in the source
data model (pydantic field `duration : int`), added to times as
`timedelta(hours=duration)`, i.e. `60 * duration` minutes.  Geographic
distances (`geopy.geodesic`, floating point) are kept abstract as a parameter
`dist : Coord → Coord → ℚ`; every result proved here holds for an arbitrary
distance function.
-/

namespace App

/-- 2-D coordinates (a latitude/longitude pair), modelled over `ℚ`. -/
abbrev Coord := ℚ × ℚ

/-- `app/models.py`, class `Location`: name, coordinates, opening/closing
times of day and visit duration in whole hours. -/
structure Location where
  name : String
  coordinates : Coord
  opening_hours : Nat
  closing_hours : Nat
  duration : Nat
deriving DecidableEq

/-- A schedule entry as built by `create_schedule_entry` in
`app/scheduling.py`.  The presentation-only `reason` and `proximity_to_next`
string annotations added by the scheduler are omitted: they never affect
times, ordering or membership. -/
structure Entry where
  name : String
  coordinates : Coord
  start_time : Nat
  end_time : Nat
deriving DecidableEq

/-- `app/scheduling.py`, `create_schedule_entry`. -/
def create_schedule_entry (location : Location) (start_time end_time : Nat) : Entry :=
  ⟨location.name, location.coordinates, start_time, end_time⟩

/-- The `i > 0` arm of the scan loop inside `schedule_single_location`
(`app/scheduling.py` lines 75-80): walking the remaining events, with `prev`
the event at index `i - 1`, return the start of the first gap that fits. -/
def scan_gaps (dur : Nat) (prev : Entry) : List Entry → Option Nat
  | [] => none
  | event :: rest =>
    if prev.end_time + dur ≤ event.start_time then some prev.end_time
    else scan_gaps dur event rest

/-- `app/scheduling.py`, `schedule_single_location` (lines 34-94): the shared
placement procedure.  Earliest candidate start is `max(daily_start, opening)`;
reject if the resulting end exceeds `min(daily_end, closing)`; otherwise scan
the existing schedule left to right (before the first event, then each gap,
recomputing the start from the previous event's end), then try after the last
event, and finally the empty-schedule case. -/
def schedule_single_location (location : Location) (current_schedule : List Entry)
    (daily_start daily_end : Nat) : Option Entry :=
  let dur := 60 * location.duration
  let start_time := max daily_start location.opening_hours
  let end_time := start_time + dur
  if end_time > min daily_end location.closing_hours then none
  else
    match current_schedule with
    | [] =>
      -- `if not current_schedule and end_time <= min(daily_end_time, closing_time)`
      if end_time ≤ min daily_end location.closing_hours then
        some (create_schedule_entry location start_time end_time)
      else none
    | first :: rest =>
      -- `if i == 0 and end_time <= event_start`
      if end_time ≤ first.start_time then
        some (create_schedule_entry location start_time end_time)
      else
        match scan_gaps dur first rest with
        | some t => some (create_schedule_entry location t (t + dur))
        | none =>
          -- `if current_schedule: last_event_end = ...`
          let last := (first :: rest).getLast (List.cons_ne_nil _ _)
          if last.end_time + dur ≤ min daily_end location.closing_hours then
            some (create_schedule_entry location last.end_time (last.end_time + dur))
          else none

/-- Scenario B of the spec: B (08:00-12:00, 1h) placed first at 08:00. -/
example :
    schedule_single_location ⟨"B", (0, 0), 480, 720, 1⟩ [] 480 1200
      = some ⟨"B", (0, 0), 480, 540⟩ := by decide

/-- Scenario B continued: A (09:00-18:00, 1h) fits after B. -/
example :
    schedule_single_location ⟨"A", (0, 0), 540, 1080, 1⟩ [⟨"B", (0, 0), 480, 540⟩] 480 1200
      = some ⟨"A", (0, 0), 540, 600⟩ := by decide

/-- Scenario C of the spec: opening 18:00, closing 19:00, duration 2h is
rejected (`end = 20:00 > closing = 19:00`). -/
example :
    schedule_single_location ⟨"C", (0, 0), 1080, 1140, 2⟩ [] 480 1200 = none := by decide

/-- Formalisation of §4.4 of the spec ("Placement Procedure") from the spec's
own words, to be compared with `schedule_single_location`: enumerate every
candidate position (before the first entry, each inter-entry gap, after the
last entry) together with its feasibility condition, and accept the earliest
feasible one; reject everything whose end would exceed
`min(daily_end, closing)`; an empty schedule accepts the step-1 values. -/
def placement_spec (location : Location) (sched : List Entry)
    (daily_start daily_end : Nat) : Option Entry :=
  let dur := 60 * location.duration
  let s0 := max daily_start location.opening_hours
  let bound := min daily_end location.closing_hours
  if s0 + dur > bound then none
  else
    match sched with
    | [] => some (create_schedule_entry location s0 (s0 + dur))
    | first :: rest =>
      let before := if s0 + dur ≤ first.start_time then [s0] else []
      let gaps := ((first :: rest).zip rest).filterMap
        (fun pn => if pn.1.end_time + dur ≤ pn.2.start_time then some pn.1.end_time else none)
      let last := (first :: rest).getLast (List.cons_ne_nil _ _)
      let after := if last.end_time + dur ≤ bound then [last.end_time] else []
      match (before ++ gaps ++ after).head? with
      | some t => some (create_schedule_entry location t (t + dur))
      | none => none

/-- Python's `min(xs, key=...)` followed by `xs.remove(...)` (used twice in
`schedule_cluster_with_priorities`): return the first element attaining the
minimal key, together with the list with that occurrence removed.  `min` keeps
the leftmost element among ties, and `remove` deletes the first element that
compares equal, which is exactly that occurrence (any earlier equal element
would have an equal key and would have been returned instead). -/
def extractMin {β : Type} [LinearOrder β] (key : Location → β) (x : Location) :
    List Location → Location × List Location
  | [] => (x, [])
  | y :: ys =>
    let r := extractMin key y ys
    if key r.1 < key x then (r.1, x :: r.2) else (x, y :: ys)

/-- `app/scheduling.py`, `calculate_score`: proximity to the last scheduled
entry plus the inverse of the remaining time (in hours) until the candidate's
closing time, floored at 0.1. -/
def calculate_score (dist : Coord → Coord → ℚ) (location : Location)
    (last_location : Entry) (current_time : Nat) : ℚ :=
  let proximity_score := dist last_location.coordinates location.coordinates
  let time_flexibility :=
    max (((location.closing_hours : ℚ) - (current_time : ℚ)) / 60) (1 / 10)
  proximity_score + 1 / time_flexibility

/-- Selection key of the greedy loop in `schedule_cluster_with_priorities`:
with an empty schedule the candidate with the earliest opening time is chosen
(the `Nat → ℚ` cast is strictly monotone, so minimisation and the
leftmost-tie-break are unchanged); otherwise the candidate minimising
`calculate_score` against the last scheduled entry. -/
def next_key (dist : Coord → Coord → ℚ) (schedule : List Entry) (current_time : Nat)
    (location : Location) : ℚ :=
  match schedule.getLast? with
  | none => (location.opening_hours : ℚ)
  | some last => calculate_score dist location last current_time

/-- Result of one run of the greedy group scheduler (and of the multi-start
search): the ordered schedule plus this pass's unvisitable locations. -/
structure SchedResult where
  schedule : List Entry
  unvisitable : List Location
deriving DecidableEq

/-- The `while cluster:` loop of `schedule_cluster_with_priorities`
(`app/scheduling.py` lines 122-143).  Each iteration removes the selected
candidate from `cluster`, so the loop runs exactly `cluster.length` times;
`fuel` is that trip count, consumed one unit per iteration. -/
def schedule_cluster_go (dist : Coord → Coord → ℚ) (daily_start daily_end : Nat) :
    Nat → List Location → List Entry → List Location → Nat → SchedResult
  | 0, _, schedule, unvisitable, _ => ⟨schedule, unvisitable⟩
  | _ + 1, [], schedule, unvisitable, _ => ⟨schedule, unvisitable⟩
  | fuel + 1, x :: xs, schedule, unvisitable, current_time =>
    let pick := extractMin (next_key dist schedule current_time) x xs
    match schedule_single_location pick.1 schedule daily_start daily_end with
    | some result =>
      schedule_cluster_go dist daily_start daily_end fuel pick.2
        (schedule ++ [result]) unvisitable result.end_time
    | none =>
      schedule_cluster_go dist daily_start daily_end fuel pick.2
        schedule (unvisitable ++ [pick.1]) current_time

/-- `app/scheduling.py`, `schedule_cluster_with_priorities` (lines 107-153):
greedy single pass over one group.  The trailing proximity-annotation loop
(lines 146-151) only writes presentation strings and is omitted. -/
def schedule_cluster_with_priorities (dist : Coord → Coord → ℚ)
    (cluster : List Location) (daily_start daily_end : Nat) : SchedResult :=
  schedule_cluster_go dist daily_start daily_end cluster.length cluster [] [] daily_start

/-- `app/scheduling.py`, `iterative_schedule_cluster` line 196:
`score = unvisitable_count * 1000 - schedule_length`. -/
def score (r : SchedResult) : Int :=
  (r.unvisitable.length : Int) * 1000 - (r.schedule.length : Int)

/-- The `for _ in range(max_iterations):` loop of `iterative_schedule_cluster`
(`app/scheduling.py` lines 192-205).  Each iteration recomputes
`schedule_cluster_with_priorities(cluster[:])` (list copy is the identity in a
pure model), keeps the strictly better score (`none` models the initial
`float("inf")`, which any score beats), and breaks once an attempt has no
unvisitable locations.  The second component counts executed iterations. -/
def iterLoop (dist : Coord → Coord → ℚ) (cluster : List Location)
    (daily_start daily_end : Nat) :
    Nat → Option (Int × SchedResult) → Nat → Option (Int × SchedResult) × Nat
  | 0, best, count => (best, count)
  | fuel + 1, best, count =>
    let result := schedule_cluster_with_priorities dist cluster daily_start daily_end
    let s := score result
    let best' := match best with
      | none => some (s, result)
      | some (bs, br) => if s < bs then some (s, result) else some (bs, br)
    if result.unvisitable.length = 0 then (best', count + 1)
    else iterLoop dist cluster daily_start daily_end fuel best' (count + 1)

/-- `app/scheduling.py`, `iterative_schedule_cluster` (lines 182-207).
Returns `none` exactly when the loop never ran (`max_iterations = 0`, the
Python `{"schedule": None, "unvisitable": None}` case). -/
def iterative_schedule_cluster (dist : Coord → Coord → ℚ) (cluster : List Location)
    (daily_start daily_end : Nat) (max_iterations : Nat) : Option SchedResult :=
  ((iterLoop dist cluster daily_start daily_end max_iterations none 0).1).map (·.2)

/-- Number of loop iterations `iterative_schedule_cluster` actually executes
(the early break on a zero-unvisitable attempt cuts the count short). -/
def iter_attempt_count (dist : Coord → Coord → ℚ) (cluster : List Location)
    (daily_start daily_end : Nat) (max_iterations : Nat) : Nat :=
  (iterLoop dist cluster daily_start daily_end max_iterations none 0).2

/-- Stable insertion step: insert `e` before the first element with a strictly
later start time (so, among equal start times, `e` comes last). -/
def insertSorted (e : Entry) : List Entry → List Entry
  | [] => [e]
  | x :: xs => if e.start_time ≤ x.start_time then e :: x :: xs else x :: insertSorted e xs

/-- Stable sort of a schedule by start time, modelling the Python
`schedule.sort(key=lambda x: x["start_time"])` in `handle_unvisitable` (the
"HH:MM" string compare coincides with the numeric compare).  Python's sort is
stable, and a stable sort's output is uniquely determined by the key order and
the input order, so this insertion sort is extensionally the same function. -/
def isortByStart : List Entry → List Entry
  | [] => []
  | e :: es => insertSorted e (isortByStart es)

/-- Insert `e` after every element whose start time is at most `e`'s: the
position the stable sort gives a newly appended element. -/
def insertByStart (e : Entry) : List Entry → List Entry
  | [] => [e]
  | x :: xs => if x.start_time ≤ e.start_time then x :: insertByStart e xs else e :: x :: xs

/-- The inner `for cluster_id, cluster_schedule in clusters.items():` loop of
`handle_unvisitable` (`app/scheduling.py` lines 22-28): try each group's
schedule in order; on the first fit, append the new entry and re-sort that
group's schedule by start time. -/
def tryFit (location : Location) (daily_start daily_end : Nat) :
    List (List Entry) → Option (List (List Entry))
  | [] => none
  | s :: rest =>
    match schedule_single_location location s daily_start daily_end with
    | some result => some (isortByStart (s ++ [result]) :: rest)
    | none =>
      match tryFit location daily_start daily_end rest with
      | some rest' => some (s :: rest')
      | none => none

/-- `app/scheduling.py`, `handle_unvisitable` (lines 19-32): the rescue pass.
Groups are modelled as the list of their schedules in dict insertion order;
the per-group `unvisitable` fields, which the pass never reads or writes, are
not part of the state.  Returns the updated schedules and the locations that
fit nowhere, in their original order. -/
def handle_unvisitable (locations : List Location) (clusters : List (List Entry))
    (daily_start daily_end : Nat) : List (List Entry) × List Location :=
  match locations with
  | [] => (clusters, [])
  | loc :: locs =>
    match tryFit loc daily_start daily_end clusters with
    | some clusters' =>
      let r := handle_unvisitable locs clusters' daily_start daily_end
      (r.1, r.2)
    | none =>
      let r := handle_unvisitable locs clusters daily_start daily_end
      (r.1, loc :: r.2)

/-- Total number of scheduled entries across all groups. -/
def totalEntries (clusters : List (List Entry)) : Nat :=
  (clusters.map List.length).sum

/-- The two error conditions of the request validation in `app/routes.py`,
`cluster_data` (lines 40-45); `some` models `raise HTTPException(400, ...)`
(the spec's `InvalidConfiguration`), raised before any clustering or
scheduling call. -/
inductive ConfigError where
  | clustersBelowOne
  | clustersExceedPoints
deriving DecidableEq

/-- The validation prefix of `cluster_data` (`app/routes.py` lines 40-45): the
only place the request can fail with a configuration error. -/
def cluster_data_validation (points : List Location) (num_clusters : Int) :
    Option ConfigError :=
  if num_clusters < 1 then some ConfigError.clustersBelowOne
  else if (points.length : Int) < num_clusters then some ConfigError.clustersExceedPoints
  else none

/-- Number of distinct coordinate vectors among the input points. -/
def distinct_point_count (points : List Location) : Nat :=
  ((points.map (·.coordinates)).dedup).length

/-- One step of the cluster-building loop of `parallel_find_best_clusters`
(`app/routes.py` lines 208-210): `best_clusters[int(cluster_id)].append(...)`.
(`List.set` leaves the list unchanged when the label is out of range; the
theorems assume in-range labels, where it matches the Python dict access.) -/
def addToClusters (cls : List (List Location)) (loc : Location) (label : Nat) :
    List (List Location) :=
  cls.set label ((cls.getD label []) ++ [loc])

/-- `app/routes.py` lines 208-210: `best_clusters = {i: [] for i in range(k)}`
then one append per `(name, cluster_id)` pair of `zip(locations.keys(),
labels)`.  With unique location names (the data model's assumption) the dict
`locations` preserves the input order, so the zip pairs the input locations in
order with the label array. -/
def build_best_clusters (locs : List Location) (labels : List Nat) (k : Nat) :
    List (List Location) :=
  (locs.zip labels).foldl (fun cls p => addToClusters cls p.1 p.2) (List.replicate k [])

/-- `app/clustering.py` line 47 / `app/improveclustering.py` line 20: the
soft-penalty weight of one member point, given its distance to the centroid. -/
def weight (penalty_factor penalty_threshold distance : ℚ) : ℚ :=
  max (1 - penalty_factor * max (distance - penalty_threshold) 0) (1 / 100)

/-- The per-cluster body of the centroid update (`app/clustering.py` lines
36-53, `app/improveclustering.py` `compute_new_centroids` lines 8-26): an
empty cluster keeps its previous centroid; otherwise the new centroid is the
weighted average of the member points.  The Euclidean norm (`tf.norm`) is kept
abstract as `distFn`; the weight-floor results hold for any distance values. -/
def compute_new_centroid (distFn : Coord → Coord → ℚ) (cluster_points : List Coord)
    (centroid : Coord) (penalty_threshold penalty_factor : ℚ) : Coord :=
  match cluster_points with
  | [] => centroid
  | _ =>
    let weights := cluster_points.map (fun p => weight penalty_factor penalty_threshold (distFn p centroid))
    let weight_sum := weights.sum
    let weighted_sum :=
      (cluster_points.zip weights).foldl
        (fun acc pw => (acc.1 + pw.1.1 * pw.2, acc.2 + pw.1.2 * pw.2)) (0, 0)
    (weighted_sum.1 / weight_sum, weighted_sum.2 / weight_sum)

/-- Adjacent-pair property claimed for finalized schedules: sorted ascending
by start time and non-overlapping (`entries[i].end ≤ entries[i+1].start`). -/
def sortedNonOverlap (l : List Entry) : Prop :=
  l.Chain' (fun a b => a.start_time ≤ b.start_time ∧ a.end_time ≤ b.start_time)

/-- An entry takes positive time (its location had positive duration). -/
def posE (e : Entry) : Prop := e.start_time < e.end_time

/-- Well-formed schedule: adjacent entries do not overlap and every entry has
positive length. -/
def goodS (l : List Entry) : Prop :=
  l.Chain' (fun a b => a.end_time ≤ b.start_time) ∧ ∀ e ∈ l, posE e

/-- An entry lies inside the daily window. -/
def inWindow (daily_start daily_end : Nat) (e : Entry) : Prop :=
  daily_start ≤ e.start_time ∧ e.start_time ≤ e.end_time ∧ e.end_time ≤ daily_end

section ExtractMin

variable {β : Type} [LinearOrder β] (key : Location → β)

theorem extractMin_perm (x : Location) (xs : List Location) :
    ((extractMin key x xs).1 :: (extractMin key x xs).2).Perm (x :: xs) := by
  induction xs generalizing x with
  | nil => simp [extractMin]
  | cons y ys ih =>
    simp only [extractMin]
    split
    · exact ((List.Perm.swap x _ _).trans ((ih y).cons x)).symm.symm
    · exact List.Perm.refl _

theorem extractMin_length (x : Location) (xs : List Location) :
    (extractMin key x xs).2.length = xs.length := by
  have h := (extractMin_perm key x xs).length_eq
  simpa using h

theorem extractMin_mem (x : Location) (xs : List Location) :
    (extractMin key x xs).1 ∈ x :: xs :=
  (extractMin_perm key x xs).mem_iff.mp (List.mem_cons_self _ _)

theorem extractMin_rest_subset (x : Location) (xs : List Location) :
    ∀ z ∈ (extractMin key x xs).2, z ∈ x :: xs := by
  intro z hz
  exact (extractMin_perm key x xs).mem_iff.mp (List.mem_cons_of_mem _ hz)

theorem extractMin_min (x : Location) (xs : List Location) :
    ∀ z ∈ (extractMin key x xs).2, key (extractMin key x xs).1 ≤ key z := by
  induction xs generalizing x with
  | nil => simp [extractMin]
  | cons y ys ih =>
    simp only [extractMin]
    split
    · next hlt =>
      intro z hz
      rcases List.mem_cons.mp hz with rfl | hz
      · exact le_of_lt hlt
      · exact ih y z hz
    · next hge =>
      intro z hz
      have hx : key x ≤ key (extractMin key y ys).1 := le_of_not_lt hge
      have hmem : z ∈ (extractMin key y ys).1 :: (extractMin key y ys).2 :=
        (extractMin_perm key y ys).symm.mem_iff.mp hz
      rcases List.mem_cons.mp hmem with rfl | hz'
      · exact hx
      · exact hx.trans (ih y z hz')

end ExtractMin

theorem scan_gaps_eq_filterMap_head (dur : Nat) :
    ∀ (l : List Entry) (prev : Entry),
      scan_gaps dur prev l =
        (((prev :: l).zip l).filterMap
          (fun pn => if pn.1.end_time + dur ≤ pn.2.start_time then some pn.1.end_time else none)).head? := by
  intro l
  induction l with
  | nil => intro prev; simp [scan_gaps]
  | cons e rest ih =>
    intro prev
    simp only [scan_gaps, List.zip_cons_cons, List.filterMap_cons]
    split
    · simp
    · simpa using ih e

/-- C3: the implemented placement procedure coincides, on every input, with
the spec's candidate-by-candidate first-fit description (`placement_spec`). -/
theorem schedule_single_location_eq_placement_spec
    (location : Location) (sched : List Entry) (daily_start daily_end : Nat) :
    schedule_single_location location sched daily_start daily_end
      = placement_spec location sched daily_start daily_end := by
  cases sched with
  | nil =>
    simp only [schedule_single_location, placement_spec]
    split
    · rfl
    · next h => simp [Nat.le_of_not_lt (by exact fun hc => h hc)]
  | cons first rest =>
    simp only [schedule_single_location, placement_spec]
    split
    · rfl
    · next hguard =>
      rw [scan_gaps_eq_filterMap_head]
      by_cases hbefore :
          max daily_start location.opening_hours + 60 * location.duration ≤ first.start_time
      · simp [hbefore]
      · simp only [hbefore, if_false, if_neg hbefore]
        cases hscan :
            (((first :: rest).zip rest).filterMap
              (fun pn => if pn.1.end_time + 60 * location.duration ≤ pn.2.start_time then
                some pn.1.end_time else none)).head? with
        | some t => simp [hscan]
        | none =>
          rw [List.filterMap_head?] at hscan
          simp only [hscan, List.nil_append]
          split
          · next hafter => simp [hscan, hafter]
          · next hafter => simp [hscan, hafter]

theorem placement_some_name {location : Location} {sched : List Entry}
    {daily_start daily_end : Nat} {e : Entry}
    (h : schedule_single_location location sched daily_start daily_end = some e) :
    e.name = location.name := by
  simp only [schedule_single_location] at h
  split at h
  · exact absurd h (by simp)
  · split at h
    · split at h
      · cases h; rfl
      · exact absurd h (by simp)
    · split at h
      · cases h; rfl
      · split at h
        · cases h; rfl
        · split at h
          · cases h; rfl
          · exact absurd h (by simp)

theorem placement_empty_some {location : Location} {daily_start daily_end : Nat} {e : Entry}
    (h : schedule_single_location location [] daily_start daily_end = some e) :
    e = create_schedule_entry location (max daily_start location.opening_hours)
          (max daily_start location.opening_hours + 60 * location.duration) := by
  simp only [schedule_single_location] at h
  split at h
  · exact absurd h (by simp)
  · split at h
    · cases h; rfl
    · exact absurd h (by simp)

theorem scan_gaps_contig_none (dur : Nat) (hdur : 0 < dur) :
    ∀ (l : List Entry) (prev : Entry),
      (prev :: l).Chain' (fun a b => b.start_time = a.end_time) →
      scan_gaps dur prev l = none := by
  intro l
  induction l with
  | nil => intro prev _; rfl
  | cons e rest ih =>
    intro prev hchain
    rw [List.chain'_cons] at hchain
    have hne : ¬ prev.end_time + dur ≤ e.start_time := by
      rw [hchain.1]; omega
    simp only [scan_gaps, if_neg hne]
    exact ih e hchain.2

/-- On a contiguous (gap-free) schedule whose first entry starts no later than
the candidate's earliest admissible start, the placement procedure either
fails or appends after the last entry. -/
theorem placement_on_contig (location : Location) (first : Entry) (rest : List Entry)
    (daily_start daily_end : Nat) (hdur : 0 < location.duration)
    (hchain : (first :: rest).Chain' (fun a b => b.start_time = a.end_time))
    (hhead : first.start_time ≤ max daily_start location.opening_hours) :
    schedule_single_location location (first :: rest) daily_start daily_end =
      (if max daily_start location.opening_hours + 60 * location.duration >
            min daily_end location.closing_hours then none
       else if ((first :: rest).getLast (List.cons_ne_nil _ _)).end_time
              + 60 * location.duration ≤ min daily_end location.closing_hours then
         some (create_schedule_entry location
                ((first :: rest).getLast (List.cons_ne_nil _ _)).end_time
                (((first :: rest).getLast (List.cons_ne_nil _ _)).end_time
                  + 60 * location.duration))
       else none) := by
  have hbefore : ¬ max daily_start location.opening_hours + 60 * location.duration
      ≤ first.start_time := by omega
  have hscan := scan_gaps_contig_none (60 * location.duration) (by omega) rest first hchain
  simp only [schedule_single_location]
  split
  · rfl
  · simp only [if_neg hbefore, hscan]

/-- Invariant of the greedy loop: starting from a contiguous schedule of
positive-length entries whose first entry lower-bounds every remaining
candidate's earliest admissible start, the loop returns a schedule with the
same properties. -/
theorem go_contig (dist : Coord → Coord → ℚ) (daily_start daily_end : Nat) :
    ∀ (n : Nat) (cluster : List Location) (schedule : List Entry)
      (unvis : List Location) (cur : Nat),
      (∀ loc ∈ cluster, 0 < loc.duration) →
      schedule.Chain' (fun a b => b.start_time = a.end_time) →
      (∀ e ∈ schedule, posE e) →
      (∀ fst, schedule.head? = some fst →
        ∀ loc ∈ cluster, fst.start_time ≤ max daily_start loc.opening_hours) →
      (schedule_cluster_go dist daily_start daily_end n cluster schedule unvis cur).schedule.Chain'
          (fun a b => b.start_time = a.end_time) ∧
      (∀ e ∈ (schedule_cluster_go dist daily_start daily_end n cluster schedule unvis cur).schedule,
        posE e) := by
  intro n
  induction n with
  | zero =>
    intro cluster schedule unvis cur _ hchain hpos _
    exact ⟨hchain, hpos⟩
  | succ n ih =>
    intro cluster schedule unvis cur hdur hchain hpos hhead
    cases cluster with
    | nil => exact ⟨hchain, hpos⟩
    | cons x xs =>
      simp only [schedule_cluster_go]
      have hpickmem : (extractMin (next_key dist schedule cur) x xs).1 ∈ x :: xs :=
        extractMin_mem _ x xs
      have hpickdur : 0 < (extractMin (next_key dist schedule cur) x xs).1.duration :=
        hdur _ hpickmem
      have hrest : ∀ z ∈ (extractMin (next_key dist schedule cur) x xs).2, z ∈ x :: xs :=
        extractMin_rest_subset _ x xs
      cases hres : schedule_single_location (extractMin (next_key dist schedule cur) x xs).1
          schedule daily_start daily_end with
      | none =>
        exact ih _ schedule _ cur (fun loc hl => hdur loc (hrest loc hl)) hchain hpos
          (fun fst hf loc hl => hhead fst hf loc (hrest loc hl))
      | some e =>
        cases schedule with
        | nil =>
          have he := placement_empty_some hres
          refine ih _ [e] unvis e.end_time (fun loc hl => hdur loc (hrest loc hl))
            (by simp) ?_ ?_
          · intro e' he'
            rcases List.mem_singleton.mp he' with rfl
            subst he
            simp only [posE, create_schedule_entry]
            omega
          · intro fst hf loc hl
            have hfe : e = fst := by simpa using hf
            subst hfe he
            have hkey := extractMin_min (next_key dist ([] : List Entry) cur) x xs _ hl
            simp only [next_key, List.getLast?_nil] at hkey
            have : (extractMin (next_key dist ([] : List Entry) cur) x xs).1.opening_hours
                ≤ loc.opening_hours := by exact_mod_cast hkey
            simp only [create_schedule_entry]
            omega
        | cons first rest =>
          rw [placement_on_contig _ first rest daily_start daily_end hpickdur hchain
            (hhead first rfl _ hpickmem)] at hres
          split at hres
          · exact absurd hres (by simp)
          · split at hres
            · next hafter =>
              cases hres
              refine ih _ ((first :: rest) ++
                  [create_schedule_entry _
                    ((first :: rest).getLast (List.cons_ne_nil _ _)).end_time
                    (((first :: rest).getLast (List.cons_ne_nil _ _)).end_time
                      + 60 * (extractMin (next_key dist (first :: rest) cur) x xs).1.duration)]) unvis
                _ (fun loc hl => hdur loc (hrest loc hl)) ?_ ?_ ?_
              · rw [List.chain'_append]
                refine ⟨hchain, by simp, ?_⟩
                intro a ha b hb
                simp only [List.head?_cons, Option.mem_def, Option.some.injEq] at hb
                subst hb
                rw [List.getLast?_eq_getLast _ (List.cons_ne_nil _ _), Option.mem_def,
                  Option.some.injEq] at ha
                subst ha
                rfl
              · intro e' he'
                rcases List.mem_append.mp he' with h | h
                · exact hpos e' h
                · rcases List.mem_singleton.mp h with rfl
                  simp only [posE, create_schedule_entry]
                  omega
              · intro fst hf loc hl
                simp only [List.cons_append, List.head?_cons, Option.some.injEq] at hf
                subst hf
                exact hhead first rfl loc (hrest loc hl)
            · exact absurd hres (by simp)

/-- Every greedy-loop iteration moves exactly one candidate either into the
schedule or into the unvisitable list: the names seen in the final result are
a permutation of those already accumulated plus the remaining candidates. -/
theorem go_names (dist : Coord → Coord → ℚ) (daily_start daily_end : Nat) :
    ∀ (n : Nat) (cluster : List Location) (schedule : List Entry)
      (unvis : List Location) (cur : Nat), cluster.length ≤ n →
      ((schedule_cluster_go dist daily_start daily_end n cluster schedule unvis cur).schedule.map
          Entry.name ++
        (schedule_cluster_go dist daily_start daily_end n cluster schedule unvis
            cur).unvisitable.map Location.name).Perm
        ((schedule.map Entry.name ++ cluster.map Location.name) ++ unvis.map Location.name) := by
  intro n
  induction n with
  | zero =>
    intro cluster schedule unvis cur hlen
    have hnil : cluster = [] := List.length_eq_zero.mp (Nat.le_zero.mp hlen)
    subst hnil
    simp [schedule_cluster_go]
  | succ n ih =>
    intro cluster schedule unvis cur hlen
    cases cluster with
    | nil => simp [schedule_cluster_go]
    | cons x xs =>
      simp only [schedule_cluster_go]
      have hperm := (extractMin_perm (next_key dist schedule cur) x xs).map Location.name
      have hlen2 : (extractMin (next_key dist schedule cur) x xs).2.length ≤ n := by
        rw [extractMin_length]
        simpa using Nat.le_of_succ_le_succ hlen
      cases hres : schedule_single_location (extractMin (next_key dist schedule cur) x xs).1
          schedule daily_start daily_end with
      | some e =>
        have hname : e.name = (extractMin (next_key dist schedule cur) x xs).1.name :=
          placement_some_name hres
        refine (ih _ (schedule ++ [e]) unvis e.end_time hlen2).trans ?_
        refine List.Perm.append_right _ ?_
        simp only [List.map_append, List.map_cons, List.map_nil, List.append_assoc,
          List.singleton_append, List.nil_append, List.cons_append, hname]
        exact List.Perm.append_left _ hperm
      | none =>
        refine (ih _ schedule (unvis ++ [(extractMin (next_key dist schedule cur) x xs).1])
          cur hlen2).trans ?_
        rw [← Multiset.coe_eq_coe] at hperm ⊢
        simp only [List.map_append, List.map_cons, List.map_nil, ← Multiset.coe_add,
          ← Multiset.cons_coe, ← Multiset.singleton_add, Multiset.coe_singleton] at hperm ⊢
        rw [← hperm]
        abel

theorem iterLoop_keep (dist : Coord → Coord → ℚ) (cluster : List Location)
    (daily_start daily_end : Nat) :
    ∀ (n count : Nat),
      (iterLoop dist cluster daily_start daily_end n
        (some (score (schedule_cluster_with_priorities dist cluster daily_start daily_end),
          schedule_cluster_with_priorities dist cluster daily_start daily_end)) count).1 =
      some (score (schedule_cluster_with_priorities dist cluster daily_start daily_end),
        schedule_cluster_with_priorities dist cluster daily_start daily_end) := by
  intro n
  induction n with
  | zero => intro count; rfl
  | succ n ih =>
    intro count
    simp only [iterLoop, lt_self_iff_false, if_false]
    split
    · rfl
    · exact ih (count + 1)

/-- With at least one iteration, the multi-start loop's best is the (unique)
per-attempt result together with its score. -/
theorem iterLoop_fst (dist : Coord → Coord → ℚ) (cluster : List Location)
    (daily_start daily_end : Nat) (n count : Nat) (hn : 0 < n) :
    (iterLoop dist cluster daily_start daily_end n none count).1 =
      some (score (schedule_cluster_with_priorities dist cluster daily_start daily_end),
        schedule_cluster_with_priorities dist cluster daily_start daily_end) := by
  cases n with
  | zero => omega
  | succ n =>
    simp only [iterLoop]
    split
    · rfl
    · exact iterLoop_keep dist cluster daily_start daily_end n (count + 1)

/-- The loop executes one iteration when the attempt has no unvisitable
locations (early break) and all `n` otherwise, independent of the incumbent. -/
theorem iterLoop_count (dist : Coord → Coord → ℚ) (cluster : List Location)
    (daily_start daily_end : Nat) :
    ∀ (n : Nat) (best : Option (Int × SchedResult)) (count : Nat),
      (iterLoop dist cluster daily_start daily_end n best count).2 =
        if n = 0 then count
        else if (schedule_cluster_with_priorities dist cluster daily_start
            daily_end).unvisitable.length = 0 then count + 1
        else count + n := by
  intro n
  induction n with
  | zero => intro best count; rfl
  | succ n ih =>
    intro best count
    simp only [iterLoop]
    split
    · next hz => simp [hz]
    · next hz =>
      rw [ih _ (count + 1)]
      simp only [hz, if_false, Nat.succ_ne_zero]
      split
      · next hn0 => subst hn0; simp
      · omega

theorem insertSorted_perm (e : Entry) : ∀ l : List Entry, (insertSorted e l).Perm (e :: l) := by
  intro l
  induction l with
  | nil => exact List.Perm.refl _
  | cons x xs ih =>
    simp only [insertSorted]
    split
    · exact List.Perm.refl _
    · exact (ih.cons x).trans (List.Perm.swap e x xs)

theorem isortByStart_perm : ∀ l : List Entry, (isortByStart l).Perm l := by
  intro l
  induction l with
  | nil => exact List.Perm.refl _
  | cons e es ih => exact (insertSorted_perm e (isortByStart es)).trans (ih.cons e)

theorem insertByStart_append (e : Entry) :
    ∀ l : List Entry, (∀ y ∈ l, y.start_time ≤ e.start_time) → insertByStart e l = l ++ [e] := by
  intro l
  induction l with
  | nil => intro _; rfl
  | cons x xs ih =>
    intro h
    simp only [insertByStart, if_pos (h x (List.mem_cons_self x xs)), List.cons_append,
      List.cons.injEq, true_and]
    exact ih (fun y hy => h y (List.mem_cons_of_mem x hy))

/-- A stable sort leaves a sorted list followed by one appended element in the
same relative order: it equals the tie-aware insertion of that element. -/
theorem isort_append_singleton (e : Entry) :
    ∀ l : List Entry, l.Chain' (fun a b => a.start_time ≤ b.start_time) →
      isortByStart (l ++ [e]) = insertByStart e l := by
  intro l
  induction l with
  | nil => intro _; rfl
  | cons x rest ih =>
    intro hchain
    have hrest : rest.Chain' (fun a b => a.start_time ≤ b.start_time) := hchain.tail
    rw [List.cons_append]
    show insertSorted x (isortByStart (rest ++ [e])) = insertByStart e (x :: rest)
    rw [ih hrest]
    by_cases hxe : x.start_time ≤ e.start_time
    · cases rest with
      | nil => simp [insertByStart, insertSorted, hxe]
      | cons y ys =>
        have hxy : x.start_time ≤ y.start_time := (List.chain'_cons.mp hchain).1
        by_cases hye : y.start_time ≤ e.start_time
        · simp [insertByStart, hye, hxe, insertSorted, hxy]
        · simp [insertByStart, hye, hxe, insertSorted]
    · have hex : e.start_time < x.start_time := Nat.lt_of_not_le hxe
      have hrest_ins : insertByStart e rest = e :: rest := by
        cases rest with
        | nil => rfl
        | cons y ys =>
          have hxy : x.start_time ≤ y.start_time := (List.chain'_cons.mp hchain).1
          have hny : ¬ y.start_time ≤ e.start_time := by omega
          simp [insertByStart, hny]
      have hins : insertSorted x rest = x :: rest := by
        cases rest with
        | nil => rfl
        | cons y ys =>
          have hxy : x.start_time ≤ y.start_time := (List.chain'_cons.mp hchain).1
          simp [insertSorted, hxy]
      simp [insertByStart, hxe, insertSorted, Nat.le_of_lt hex, hrest_ins, hins]

theorem goodS_sorted : ∀ l : List Entry, goodS l →
    l.Chain' (fun a b => a.start_time ≤ b.start_time) := by
  intro l
  induction l with
  | nil => intro _; simp
  | cons a t ih =>
    intro hg
    cases t with
    | nil => simp
    | cons b t' =>
      rw [List.chain'_cons]
      obtain ⟨hchain, hpos⟩ := hg
      rw [List.chain'_cons] at hchain
      refine ⟨?_, ih ⟨hchain.2, fun e he => hpos e (List.mem_cons_of_mem a he)⟩⟩
      have h1 : a.start_time < a.end_time := hpos a (List.mem_cons_self _ _)
      have h2 : a.end_time ≤ b.start_time := hchain.1
      omega

theorem goodS_sortedNonOverlap : ∀ l : List Entry, goodS l → sortedNonOverlap l := by
  intro l
  induction l with
  | nil => intro _; simp [sortedNonOverlap]
  | cons a t ih =>
    intro hg
    cases t with
    | nil => simp [sortedNonOverlap]
    | cons b t' =>
      rw [sortedNonOverlap, List.chain'_cons]
      obtain ⟨hchain, hpos⟩ := hg
      rw [List.chain'_cons] at hchain
      have h1 : a.start_time < a.end_time := hpos a (List.mem_cons_self _ _)
      have h2 : a.end_time ≤ b.start_time := hchain.1
      exact ⟨⟨by omega, h2⟩,
        ih ⟨hchain.2, fun e he => hpos e (List.mem_cons_of_mem a he)⟩⟩

theorem mem_start_le_getLast :
    ∀ (l : List Entry) (h : l ≠ []), l.Chain' (fun a b => a.start_time ≤ b.start_time) →
      ∀ y ∈ l, y.start_time ≤ (l.getLast h).start_time := by
  intro l
  induction l with
  | nil => intro h; exact absurd rfl h
  | cons a t ih =>
    intro _ hchain y hy
    cases t with
    | nil =>
      rcases List.mem_singleton.mp hy with rfl
      simp [List.getLast]
    | cons b t' =>
      rw [List.chain'_cons] at hchain
      rw [List.getLast_cons (List.cons_ne_nil _ _)]
      rcases List.mem_cons.mp hy with rfl | hy'
      · exact hchain.1.trans
          (ih (List.cons_ne_nil _ _) hchain.2 b (List.mem_cons_self _ _))
      · exact ih (List.cons_ne_nil _ _) hchain.2 y hy'

/-- Inserting the entry built from a successful gap scan at its sorted
position preserves well-formedness: the gap's bounds become the chain links. -/
theorem scan_gaps_insert_good (dur : Nat) (hdur : 0 < dur) (x : Entry) :
    ∀ (l : List Entry) (prev : Entry) (t : Nat),
      x.start_time = t → x.end_time = t + dur →
      goodS (prev :: l) → scan_gaps dur prev l = some t →
      prev.end_time ≤ t ∧ goodS (insertByStart x (prev :: l)) := by
  intro l
  induction l with
  | nil =>
    intro prev t _ _ _ hscan
    exact absurd hscan (by simp [scan_gaps])
  | cons e rest ih =>
    intro prev t hx1 hx2 hgood hscan
    obtain ⟨hchain, hpos⟩ := hgood
    rw [List.chain'_cons] at hchain
    have hprevpos : prev.start_time < prev.end_time := hpos prev (List.mem_cons_self _ _)
    have hepos : e.start_time < e.end_time :=
      hpos e (List.mem_cons_of_mem _ (List.mem_cons_self _ _))
    rw [scan_gaps] at hscan
    split at hscan
    · next hfit =>
      have ht : t = prev.end_time := by
        cases hscan; rfl
      subst ht
      refine ⟨le_refl _, ?_⟩
      have h1 : prev.start_time ≤ x.start_time := by omega
      have h2 : ¬ e.start_time ≤ x.start_time := by omega
      simp only [insertByStart, if_pos h1, if_neg h2]
      refine ⟨?_, ?_⟩
      · rw [List.chain'_cons, List.chain'_cons]
        exact ⟨by omega, by omega, hchain.2⟩
      · intro e' he'
        rcases List.mem_cons.mp he' with rfl | he'
        · exact hprevpos
        · rcases List.mem_cons.mp he' with rfl | he'
          · simp only [posE]; omega
          · exact hpos e' (List.mem_cons_of_mem _ he')
    · next hnofit =>
      have hgood' : goodS (e :: rest) :=
        ⟨hchain.2, fun e' he' => hpos e' (List.mem_cons_of_mem _ he')⟩
      obtain ⟨hle, hgood''⟩ := ih e t hx1 hx2 hgood' hscan
      have hprevx : prev.start_time ≤ x.start_time := by omega
      have hprevt : prev.end_time ≤ t := by omega
      refine ⟨hprevt, ?_⟩
      simp only [insertByStart, if_pos hprevx]
      by_cases hex : e.start_time ≤ x.start_time
      · rw [if_pos hex]
        have hshape : insertByStart x (e :: rest) = e :: insertByStart x rest := by
          simp [insertByStart, hex]
        rw [hshape] at hgood''
        refine ⟨?_, ?_⟩
        · rw [List.chain'_cons]
          exact ⟨hchain.1, hgood''.1⟩
        · intro e' he'
          rcases List.mem_cons.mp he' with rfl | he'
          · exact hprevpos
          · exact hgood''.2 e' he'
      · rw [if_neg hex]
        have hshape : insertByStart x (e :: rest) = x :: e :: rest := by
          simp [insertByStart, hex]
        rw [hshape] at hgood''
        refine ⟨?_, ?_⟩
        · rw [List.chain'_cons]
          exact ⟨by omega, hgood''.1⟩
        · intro e' he'
          rcases List.mem_cons.mp he' with rfl | he'
          · exact hprevpos
          · exact hgood''.2 e' he'

/-- Appending a successfully placed entry and re-sorting by start time yields
a well-formed schedule again (positive durations assumed). -/
theorem placement_insert_good (location : Location) (s : List Entry)
    (daily_start daily_end : Nat) (e : Entry)
    (hdur : 0 < location.duration) (hgood : goodS s)
    (hres : schedule_single_location location s daily_start daily_end = some e) :
    goodS (isortByStart (s ++ [e])) := by
  rw [isort_append_singleton e s (goodS_sorted s hgood)]
  cases s with
  | nil =>
    simp only [schedule_single_location] at hres
    split at hres
    · exact absurd hres (by simp)
    · split at hres
      · cases hres
        simp only [insertByStart]
        refine ⟨by simp, ?_⟩
        intro e' he'
        rcases List.mem_singleton.mp he' with rfl
        simp only [posE, create_schedule_entry]
        omega
      · exact absurd hres (by simp)
  | cons first rest =>
    obtain ⟨hchain, hpos⟩ := hgood
    have hfirstpos : first.start_time < first.end_time := hpos first (List.mem_cons_self _ _)
    simp only [schedule_single_location] at hres
    split at hres
    · exact absurd hres (by simp)
    · next hguard =>
      split at hres
      · next hbefore =>
        cases hres
        have hnb : ¬ first.start_time ≤
            (create_schedule_entry location (max daily_start location.opening_hours)
              (max daily_start location.opening_hours + 60 * location.duration)).start_time := by
          simp only [create_schedule_entry]
          omega
        simp only [insertByStart, if_neg hnb]
        refine ⟨?_, ?_⟩
        · rw [List.chain'_cons]
          exact ⟨by simp only [create_schedule_entry]; omega, hchain⟩
        · intro e' he'
          rcases List.mem_cons.mp he' with rfl | he'
          · simp only [posE, create_schedule_entry]; omega
          · exact hpos e' he'
      · split at hres
        · next t hscan =>
          cases hres
          exact (scan_gaps_insert_good (60 * location.duration) (by omega) _ rest first t
            rfl rfl ⟨hchain, hpos⟩ hscan).2
        · split at hres
          · next hafter =>
            cases hres
            have hmax : ∀ y ∈ first :: rest, y.start_time ≤
                (create_schedule_entry location
                  ((first :: rest).getLast (List.cons_ne_nil _ _)).end_time
                  (((first :: rest).getLast (List.cons_ne_nil _ _)).end_time
                    + 60 * location.duration)).start_time := by
              intro y hy
              have h1 := mem_start_le_getLast (first :: rest) (List.cons_ne_nil _ _)
                (goodS_sorted _ ⟨hchain, hpos⟩) y hy
              have h2 : ((first :: rest).getLast (List.cons_ne_nil _ _)).start_time <
                  ((first :: rest).getLast (List.cons_ne_nil _ _)).end_time :=
                hpos _ (List.getLast_mem _)
              simp only [create_schedule_entry]
              omega
            rw [insertByStart_append _ _ hmax]
            refine ⟨?_, ?_⟩
            · rw [List.chain'_append]
              refine ⟨hchain, by simp, ?_⟩
              intro a ha b hb
              simp only [List.head?_cons, Option.mem_def, Option.some.injEq] at hb
              subst hb
              rw [List.getLast?_eq_getLast _ (List.cons_ne_nil _ _), Option.mem_def,
                Option.some.injEq] at ha
              subst ha
              simp [create_schedule_entry]
            · intro e' he'
              rcases List.mem_append.mp he' with h | h
              · exact hpos e' h
              · rcases List.mem_singleton.mp h with rfl
                simp only [posE, create_schedule_entry]
                omega
          · exact absurd hres (by simp)

theorem tryFit_good (location : Location) (daily_start daily_end : Nat)
    (hdur : 0 < location.duration) :
    ∀ (cls cls' : List (List Entry)), tryFit location daily_start daily_end cls = some cls' →
      (∀ s ∈ cls, goodS s) → ∀ s ∈ cls', goodS s := by
  intro cls
  induction cls with
  | nil => intro cls' h; exact absurd h (by simp [tryFit])
  | cons s rest ih =>
    intro cls' h hgood
    simp only [tryFit] at h
    cases hres : schedule_single_location location s daily_start daily_end with
    | some e =>
      rw [hres] at h
      cases h
      intro s' hs'
      rcases List.mem_cons.mp hs' with rfl | hs'
      · exact placement_insert_good location s daily_start daily_end e hdur
          (hgood s (List.mem_cons_self _ _)) hres
      · exact hgood s' (List.mem_cons_of_mem _ hs')
    | none =>
      rw [hres] at h
      cases htf : tryFit location daily_start daily_end rest with
      | some rest' =>
        rw [htf] at h
        cases h
        intro s' hs'
        rcases List.mem_cons.mp hs' with rfl | hs'
        · exact hgood s' (List.mem_cons_self _ _)
        · exact ih rest' htf (fun t ht => hgood t (List.mem_cons_of_mem _ ht)) s' hs'
      | none =>
        rw [htf] at h
        exact absurd h (by simp)

theorem handle_unvisitable_good (daily_start daily_end : Nat) :
    ∀ (locs : List Location) (cls : List (List Entry)),
      (∀ loc ∈ locs, 0 < loc.duration) → (∀ s ∈ cls, goodS s) →
      ∀ s ∈ (handle_unvisitable locs cls daily_start daily_end).1, goodS s := by
  intro locs
  induction locs with
  | nil => intro cls _ hgood; exact hgood
  | cons loc locs ih =>
    intro cls hdur hgood
    simp only [handle_unvisitable]
    cases htf : tryFit loc daily_start daily_end cls with
    | some cls' =>
      exact ih cls' (fun l hl => hdur l (List.mem_cons_of_mem _ hl))
        (tryFit_good loc daily_start daily_end (hdur loc (List.mem_cons_self _ _)) cls cls'
          htf hgood)
    | none =>
      exact ih cls (fun l hl => hdur l (List.mem_cons_of_mem _ hl)) hgood

theorem forall2_subset_refl : ∀ l : List (List Entry),
    List.Forall₂ (fun s t => ∀ e ∈ s, e ∈ t) l l := by
  intro l
  induction l with
  | nil => exact List.Forall₂.nil
  | cons s rest ih => exact List.Forall₂.cons (fun e he => he) ih

theorem forall2_subset_trans {a b c : List (List Entry)}
    (hab : List.Forall₂ (fun s t => ∀ e ∈ s, e ∈ t) a b)
    (hbc : List.Forall₂ (fun s t => ∀ e ∈ s, e ∈ t) b c) :
    List.Forall₂ (fun s t => ∀ e ∈ s, e ∈ t) a c := by
  induction hab generalizing c with
  | nil => cases hbc; exact List.Forall₂.nil
  | cons hst htl ih =>
    cases hbc with
    | cons hst' htl' => exact List.Forall₂.cons (fun e he => hst' _ (hst e he)) (ih htl')

theorem tryFit_structure (location : Location) (daily_start daily_end : Nat) :
    ∀ (cls cls' : List (List Entry)), tryFit location daily_start daily_end cls = some cls' →
      List.Forall₂ (fun s t => ∀ e ∈ s, e ∈ t) cls cls' ∧
      totalEntries cls' = totalEntries cls + 1 := by
  intro cls
  induction cls with
  | nil => intro cls' h; exact absurd h (by simp [tryFit])
  | cons s rest ih =>
    intro cls' h
    simp only [tryFit] at h
    cases hres : schedule_single_location location s daily_start daily_end with
    | some e =>
      rw [hres] at h
      cases h
      refine ⟨List.Forall₂.cons ?_ (forall2_subset_refl rest), ?_⟩
      · intro e' he'
        exact (isortByStart_perm _).mem_iff.mpr (List.mem_append_left _ he')
      · have hlen : (isortByStart (s ++ [e])).length = s.length + 1 := by
          rw [(isortByStart_perm _).length_eq]
          simp
        simp only [totalEntries, List.map_cons, List.sum_cons, hlen]
        omega
    | none =>
      rw [hres] at h
      cases htf : tryFit location daily_start daily_end rest with
      | some rest' =>
        rw [htf] at h
        cases h
        obtain ⟨hf, hlen⟩ := ih rest' htf
        refine ⟨List.Forall₂.cons (fun e he => he) hf, ?_⟩
        simp only [totalEntries, List.map_cons, List.sum_cons] at hlen ⊢
        omega
      | none =>
        rw [htf] at h
        exact absurd h (by simp)

theorem addToClusters_length (cls : List (List Location)) (loc : Location) (label : Nat) :
    (addToClusters cls loc label).length = cls.length := by
  simp [addToClusters]

theorem addToClusters_join : ∀ (cls : List (List Location)) (loc : Location) (label : Nat),
    label < cls.length → ((addToClusters cls loc label).flatten).Perm (cls.flatten ++ [loc]) := by
  intro cls
  induction cls with
  | nil => intro loc label h; simp at h
  | cons c rest ih =>
    intro loc label hlab
    cases label with
    | zero =>
      simp only [addToClusters, List.set_cons_zero, List.getD_cons_zero, List.flatten_cons]
      rw [← Multiset.coe_eq_coe]
      simp only [← Multiset.coe_add]
      abel
    | succ label =>
      have hlab' : label < rest.length := by simpa using hlab
      have := ih loc label hlab'
      simp only [addToClusters] at this ⊢
      simp only [List.set_cons_succ, List.getD_cons_succ, List.flatten_cons]
      have h := List.Perm.append_left c this
      rw [← List.append_assoc] at h
      exact h

theorem foldl_addToClusters_length :
    ∀ (pairs : List (Location × Nat)) (cls : List (List Location)),
      (pairs.foldl (fun cls p => addToClusters cls p.1 p.2) cls).length = cls.length := by
  intro pairs
  induction pairs with
  | nil => intro cls; rfl
  | cons p ps ih =>
    intro cls
    rw [List.foldl_cons, ih, addToClusters_length]

theorem foldl_addToClusters_join :
    ∀ (pairs : List (Location × Nat)) (cls : List (List Location)),
      (∀ p ∈ pairs, p.2 < cls.length) →
      ((pairs.foldl (fun cls p => addToClusters cls p.1 p.2) cls).flatten).Perm
        (cls.flatten ++ pairs.map Prod.fst) := by
  intro pairs
  induction pairs with
  | nil => intro cls _; simp
  | cons p ps ih =>
    intro cls hlab
    rw [List.foldl_cons]
    have h1 : ∀ q ∈ ps, q.2 < (addToClusters cls p.1 p.2).length := by
      intro q hq
      rw [addToClusters_length]
      exact hlab q (List.mem_cons_of_mem _ hq)
    refine (ih _ h1).trans ?_
    have h2 := addToClusters_join cls p.1 p.2 (hlab p (List.mem_cons_self _ _))
    refine (List.Perm.append_right _ h2).trans ?_
    simp [List.append_assoc]

theorem join_replicate_nil : ∀ k : Nat, (List.replicate k ([] : List Location)).flatten = [] := by
  intro k
  induction k with
  | zero => rfl
  | succ k ih => simp [List.replicate_succ, ih]

theorem scan_gaps_window (dur daily_start daily_end : Nat) :
    ∀ (l : List Entry) (prev : Entry) (t : Nat),
      (∀ x ∈ prev :: l, inWindow daily_start daily_end x) →
      scan_gaps dur prev l = some t →
      daily_start ≤ t ∧ t + dur ≤ daily_end := by
  intro l
  induction l with
  | nil => intro prev t _ hscan; exact absurd hscan (by simp [scan_gaps])
  | cons e rest ih =>
    intro prev t hwin hscan
    rw [scan_gaps] at hscan
    split at hscan
    · next hfit =>
      have ht : t = prev.end_time := by cases hscan; rfl
      subst ht
      obtain ⟨h1, h2, h3⟩ := hwin prev (List.mem_cons_self _ _)
      obtain ⟨h4, h5, h6⟩ := hwin e (List.mem_cons_of_mem _ (List.mem_cons_self _ _))
      omega
    · exact ih e t (fun x hx => hwin x (List.mem_cons_of_mem _ hx)) hscan

/-- C2 (amended): on a schedule whose entries lie in the daily window, every
placed entry also lies in the daily window; containment in the location's own
opening/closing window additionally holds for every placement that accepts
the step-1 values — into an empty schedule, and before the first entry of a
nonempty schedule (the accept condition `end ≤ first.start` with
`start = max(daily_start, opening)`, `end = start + duration`, under the
step-2 guard).  The gap and after-last branches recompute the start from the
previous entry's end without clamping to the opening time or rechecking the
closing time, so for them only the daily window is guaranteed
(see the counterexample). -/
theorem C2_amended_window_containment (location : Location) (s : List Entry)
    (daily_start daily_end : Nat) (e : Entry)
    (hwin : ∀ x ∈ s, inWindow daily_start daily_end x)
    (hres : schedule_single_location location s daily_start daily_end = some e) :
    inWindow daily_start daily_end e ∧
    (s = [] → location.opening_hours ≤ e.start_time ∧
      e.end_time ≤ location.closing_hours) ∧
    (∀ first rest, s = first :: rest →
      max daily_start location.opening_hours + 60 * location.duration ≤ first.start_time →
      location.opening_hours ≤ e.start_time ∧
        e.end_time ≤ location.closing_hours) := by
  cases s with
  | nil =>
    simp only [schedule_single_location] at hres
    split at hres
    · exact absurd hres (by simp)
    · next hguard =>
      split at hres
      · cases hres
        simp only [inWindow, create_schedule_entry]
        refine ⟨⟨le_max_left _ _, by omega, by omega⟩,
          fun _ => ⟨le_max_right _ _, by omega⟩,
          (fun first rest heq _ => nomatch heq)⟩
      · exact absurd hres (by simp)
  | cons f r =>
    simp only [schedule_single_location] at hres
    split at hres
    · exact absurd hres (by simp)
    · next hguard =>
      split at hres
      · next hbefore =>
        cases hres
        simp only [inWindow, create_schedule_entry]
        exact ⟨⟨le_max_left _ _, by omega, by omega⟩, (fun h => nomatch h),
          fun first rest heq hcond => ⟨le_max_right _ _, by omega⟩⟩
      · next hbefore =>
        split at hres
        · next t hscan =>
          cases hres
          have hw := scan_gaps_window (60 * location.duration) daily_start daily_end r f t
            hwin hscan
          refine ⟨?_, (fun h => nomatch h), ?_⟩
          · simp only [inWindow, create_schedule_entry]
            omega
          · intro first rest heq hcond
            cases heq
            exact absurd hcond hbefore
        · split at hres
          · next hafter =>
            cases hres
            obtain ⟨h1, h2, h3⟩ := hwin _ (List.getLast_mem (List.cons_ne_nil f r))
            refine ⟨?_, (fun h => nomatch h), ?_⟩
            · simp only [inWindow, create_schedule_entry]
              omega
            · intro first rest heq hcond
              cases heq
              exact absurd hcond hbefore
          · exact absurd hres (by simp)

/-- C2 (counterexample): the claim fails as stated.  A location opening at
12:00 is placed 10:00-11:00 after an 08:00-10:00 entry (start before
opening), and a location closing at 13:00 is placed 14:00-15:00 into the
08:00-14:00 / 16:00-17:00 gap (end after closing). -/
theorem C2_counterexample :
    (schedule_single_location ⟨"C", (0, 0), 720, 1200, 1⟩ [⟨"D", (0, 0), 480, 600⟩] 480 1200
        = some ⟨"C", (0, 0), 600, 660⟩ ∧
      600 < (⟨"C", (0, 0), 720, 1200, 1⟩ : Location).opening_hours) ∧
    (schedule_single_location ⟨"E", (0, 0), 720, 780, 1⟩
        [⟨"F", (0, 0), 480, 840⟩, ⟨"G", (0, 0), 960, 1020⟩] 480 1200
        = some ⟨"E", (0, 0), 840, 900⟩ ∧
      (⟨"E", (0, 0), 720, 780, 1⟩ : Location).closing_hours < 900) := by
  decide

/-- C2 (witness): a location placed before the first entry of a nonempty
schedule (08:00-09:00 fits before an existing 10:00-12:00 entry) lies in the
daily window and in its own opening/closing window. -/
theorem C2_witness :
    inWindow 480 1200 ⟨"A", (0, 0), 480, 540⟩ ∧
    ((⟨"A", (0, 0), 480, 1200, 1⟩ : Location).opening_hours ≤
        (⟨"A", (0, 0), 480, 540⟩ : Entry).start_time ∧
      (⟨"A", (0, 0), 480, 540⟩ : Entry).end_time ≤
        (⟨"A", (0, 0), 480, 1200, 1⟩ : Location).closing_hours) :=
  ⟨(C2_amended_window_containment ⟨"A", (0, 0), 480, 1200, 1⟩ [⟨"Z", (0, 0), 600, 720⟩]
      480 1200 ⟨"A", (0, 0), 480, 540⟩ (by simp [inWindow]) (by decide)).1,
    (C2_amended_window_containment ⟨"A", (0, 0), 480, 1200, 1⟩ [⟨"Z", (0, 0), 600, 720⟩]
      480 1200 ⟨"A", (0, 0), 480, 540⟩ (by simp [inWindow]) (by decide)).2.2
      ⟨"Z", (0, 0), 600, 720⟩ [] rfl (by decide)⟩

/-- C1 (amended): provided every location has positive duration (and, for the
rescue pass, the incoming per-group schedules are well-formed), every
finalized group schedule — the greedy group scheduler's output and each
group's schedule after the rescue pass — is sorted ascending by start time
with `entries[i].end ≤ entries[i+1].start` for all adjacent pairs. -/
theorem C1_amended_sorted_nonoverlap (dist : Coord → Coord → ℚ)
    (daily_start daily_end : Nat) (cluster locs : List Location)
    (cls : List (List Entry))
    (hc : ∀ loc ∈ cluster, 0 < loc.duration)
    (hl : ∀ loc ∈ locs, 0 < loc.duration)
    (hcls : ∀ s ∈ cls, goodS s) :
    sortedNonOverlap
        (schedule_cluster_with_priorities dist cluster daily_start daily_end).schedule ∧
    ∀ s ∈ (handle_unvisitable locs cls daily_start daily_end).1, sortedNonOverlap s := by
  constructor
  · have h := go_contig dist daily_start daily_end cluster.length cluster [] [] daily_start
      hc (by simp) (by simp) (by simp)
    exact goodS_sortedNonOverlap _
      ⟨h.1.imp (fun a b hr => le_of_eq hr.symm), h.2⟩
  · intro s hs
    exact goodS_sortedNonOverlap s
      (handle_unvisitable_good daily_start daily_end locs cls hl hcls s hs)

/-- C1 (counterexample): with a zero-duration location the greedy scheduler
places an entry before the first entry of the list and appends it unsorted,
so the returned schedule `[08:00-09:00, 08:00-08:00]` violates
`entries[i].end ≤ entries[i+1].start`. -/
theorem C1_counterexample :
    ¬ sortedNonOverlap
        (schedule_cluster_with_priorities (fun _ _ => 0)
          [⟨"A", (0, 0), 480, 1200, 1⟩, ⟨"B", (0, 0), 480, 1200, 0⟩] 480 1200).schedule := by
  intro h
  rw [sortedNonOverlap] at h
  have hsched : (schedule_cluster_with_priorities (fun _ _ => 0)
      [⟨"A", (0, 0), 480, 1200, 1⟩, ⟨"B", (0, 0), 480, 1200, 0⟩] 480 1200).schedule
      = [⟨"A", (0, 0), 480, 540⟩, ⟨"B", (0, 0), 480, 480⟩] := by decide
  rw [hsched, List.chain'_cons] at h
  exact absurd h.1.2 (by decide)

/-- C1 (witness): the amended theorem applied to a one-location group with
positive duration and an empty rescue input. -/
theorem C1_witness :
    sortedNonOverlap (schedule_cluster_with_priorities (fun _ _ => 0)
        [⟨"A", (0, 0), 480, 1200, 1⟩] 480 1200).schedule ∧
    ∀ s ∈ (handle_unvisitable [] [] 480 1200).1, sortedNonOverlap s :=
  ⟨(C1_amended_sorted_nonoverlap (fun _ _ => 0) 480 1200
      [⟨"A", (0, 0), 480, 1200, 1⟩] [] [] (by decide) (by simp) (by simp)).1,
    (C1_amended_sorted_nonoverlap (fun _ _ => 0) 480 1200
      [⟨"A", (0, 0), 480, 1200, 1⟩] [] [] (by decide) (by simp) (by simp)).2⟩

/-- C4: the per-group multi-start scheduler returns the (deterministic)
attempt result; it executes at most 20 iterations, exactly one when the
attempt has no unvisitable locations and all 20 otherwise; the score is
`unvisitable * 1000 - schedule_length`, kept by strict improvement; among
attempts scheduling the same location pool, fewer unvisitable locations
always gives a strictly lower score, and among equal unvisitable counts the
lower score is exactly the longer schedule. -/
theorem C4_multistart_policy (dist : Coord → Coord → ℚ) (cluster : List Location)
    (daily_start daily_end : Nat) :
    iterative_schedule_cluster dist cluster daily_start daily_end 20
        = some (schedule_cluster_with_priorities dist cluster daily_start daily_end) ∧
    iter_attempt_count dist cluster daily_start daily_end 20 ≤ 20 ∧
    ((schedule_cluster_with_priorities dist cluster daily_start daily_end).unvisitable.length
        = 0 → iter_attempt_count dist cluster daily_start daily_end 20 = 1) ∧
    ((schedule_cluster_with_priorities dist cluster daily_start daily_end).unvisitable.length
        ≠ 0 → iter_attempt_count dist cluster daily_start daily_end 20 = 20) ∧
    (∀ a b : SchedResult,
      a.schedule.length + a.unvisitable.length = b.schedule.length + b.unvisitable.length →
      a.unvisitable.length < b.unvisitable.length → score a < score b) ∧
    (∀ a b : SchedResult, a.unvisitable.length = b.unvisitable.length →
      (score a < score b ↔ b.schedule.length < a.schedule.length)) := by
  refine ⟨?_, ?_, ?_, ?_, ?_, ?_⟩
  · unfold iterative_schedule_cluster
    rw [iterLoop_fst dist cluster daily_start daily_end 20 0 (by omega)]
    rfl
  · unfold iter_attempt_count
    rw [iterLoop_count]
    split
    · omega
    · split <;> omega
  · intro hz
    unfold iter_attempt_count
    rw [iterLoop_count]
    simp [hz]
  · intro hz
    unfold iter_attempt_count
    rw [iterLoop_count]
    simp [hz]
  · intro a b htot hlt
    simp only [score]
    omega
  · intro a b heq
    simp only [score, heq]
    omega

/-- C4 (witness): on a group whose single attempt has no unvisitable
location, the loop stops after exactly one iteration. -/
theorem C4_witness :
    iter_attempt_count (fun _ _ => 0) [⟨"A", (0, 0), 480, 1200, 1⟩] 480 1200 20 = 1 :=
  (C4_multistart_policy (fun _ _ => 0) [⟨"A", (0, 0), 480, 1200, 1⟩] 480 1200).2.2.1
    (by decide)

/-- C5: the rescue pass only ever adds entries: the total number of scheduled
entries does not decrease, every entry of every group's schedule before the
pass is still in that group's schedule after it, and the returned unvisitable
list is a subsequence (subset preserving original order) of the input
leftover list. -/
theorem C5_rescue_monotone :
    ∀ (locs : List Location) (cls : List (List Entry)) (daily_start daily_end : Nat),
      totalEntries cls ≤
        totalEntries (handle_unvisitable locs cls daily_start daily_end).1 ∧
      List.Forall₂ (fun s t => ∀ e ∈ s, e ∈ t) cls
        (handle_unvisitable locs cls daily_start daily_end).1 ∧
      ((handle_unvisitable locs cls daily_start daily_end).2).Sublist locs := by
  intro locs
  induction locs with
  | nil =>
    intro cls daily_start daily_end
    exact ⟨le_refl _, forall2_subset_refl cls, List.Sublist.refl _⟩
  | cons loc locs ih =>
    intro cls daily_start daily_end
    cases htf : tryFit loc daily_start daily_end cls with
    | some cls' =>
      simp only [handle_unvisitable, htf]
      obtain ⟨hf, hlen⟩ := tryFit_structure loc daily_start daily_end cls cls' htf
      obtain ⟨h1, h2, h3⟩ := ih cls' daily_start daily_end
      exact ⟨by omega, forall2_subset_trans hf h2, h3.cons loc⟩
    | none =>
      simp only [handle_unvisitable, htf]
      obtain ⟨h1, h2, h3⟩ := ih cls daily_start daily_end
      exact ⟨h1, h2, h3.cons₂ loc⟩

/-- C6 (amended): the request fails with a configuration error exactly when
the group count is below 1 or exceeds the number of points; the
fewer-distinct-points-than-groups condition is not checked anywhere. -/
theorem C6_amended_validation (points : List Location) (num_clusters : Int) :
    (cluster_data_validation points num_clusters).isSome ↔
      (num_clusters < 1 ∨ (points.length : Int) < num_clusters) := by
  simp only [cluster_data_validation]
  split_ifs with h1 h2
  · simp [h1]
  · simp [h1, h2]
  · simp [h1, h2]

/-- C6 (counterexample): two points with identical coordinates and two
requested groups — fewer distinct points than groups — pass validation with
no configuration error. -/
theorem C6_counterexample :
    distinct_point_count
        [⟨"A", (0, 0), 480, 1200, 1⟩, ⟨"B", (0, 0), 480, 1200, 1⟩] < 2 ∧
    cluster_data_validation
        [⟨"A", (0, 0), 480, 1200, 1⟩, ⟨"B", (0, 0), 480, 1200, 1⟩] 2 = none := by
  decide

/-- C7: an accepted clustering with one in-range label per location
partitions the input: the concatenation of all groups is a permutation of the
input location list (every location in exactly one group, union equals the
input set) and there are exactly `k` groups. -/
theorem C7_cluster_partition (locs : List Location) (labels : List Nat) (k : Nat)
    (hlen : labels.length = locs.length) (hlab : ∀ lab ∈ labels, lab < k) :
    ((build_best_clusters locs labels k).flatten).Perm locs ∧
    (build_best_clusters locs labels k).length = k := by
  constructor
  · unfold build_best_clusters
    refine (foldl_addToClusters_join (locs.zip labels) _ ?_).trans ?_
    · intro p hp
      rw [List.length_replicate]
      exact hlab p.2 (List.of_mem_zip hp).2
    · rw [join_replicate_nil, List.nil_append, List.map_fst_zip _ _ hlen.ge]
  · unfold build_best_clusters
    rw [foldl_addToClusters_length, List.length_replicate]

/-- C7 (witness): two locations with labels `[1, 0]` are partitioned into two
singleton groups whose union is the input. -/
theorem C7_witness :
    ((build_best_clusters [⟨"A", (0, 0), 480, 1200, 1⟩, ⟨"B", (1, 1), 480, 1200, 1⟩]
        [1, 0] 2).flatten).Perm
      [⟨"A", (0, 0), 480, 1200, 1⟩, ⟨"B", (1, 1), 480, 1200, 1⟩] ∧
    (build_best_clusters [⟨"A", (0, 0), 480, 1200, 1⟩, ⟨"B", (1, 1), 480, 1200, 1⟩]
        [1, 0] 2).length = 2 :=
  C7_cluster_partition [⟨"A", (0, 0), 480, 1200, 1⟩, ⟨"B", (1, 1), 480, 1200, 1⟩]
    [1, 0] 2 (by decide) (by decide)

/-- C8: every soft-penalty weight is at least the floor 0.01, so the weight
sum of a non-empty cluster is strictly positive (the centroid-update division
never divides by zero), and an empty cluster performs no division at all —
its previous centroid is returned unchanged. -/
theorem C8_weight_floor :
    (∀ penalty_factor penalty_threshold distance : ℚ,
      1 / 100 ≤ weight penalty_factor penalty_threshold distance) ∧
    (∀ (distFn : Coord → Coord → ℚ) (pts : List Coord) (centroid : Coord)
      (penalty_threshold penalty_factor : ℚ), pts ≠ [] →
      0 < (pts.map (fun p =>
        weight penalty_factor penalty_threshold (distFn p centroid))).sum) ∧
    (∀ (distFn : Coord → Coord → ℚ) (centroid : Coord)
      (penalty_threshold penalty_factor : ℚ),
      compute_new_centroid distFn [] centroid penalty_threshold penalty_factor
        = centroid) := by
  refine ⟨?_, ?_, ?_⟩
  · intro pf pt d
    exact le_max_right _ _
  · intro distFn pts centroid pt pf hne
    refine List.sum_pos _ ?_ (by simpa using hne)
    intro w hw
    rcases List.mem_map.mp hw with ⟨p, _, rfl⟩
    calc (0 : ℚ) < 1 / 100 := by norm_num
      _ ≤ weight pf pt (distFn p centroid) := le_max_right _ _
  · intro distFn centroid pt pf
    rfl

/-- C8 (witness): a singleton cluster has strictly positive weight sum. -/
theorem C8_witness :
    0 < (([((0 : ℚ), (0 : ℚ))] : List Coord).map (fun _ => weight 1 1 5)).sum :=
  C8_weight_floor.2.1 (fun _ _ => 5) [(0, 0)] (0, 0) 1 1 (by simp)

/-- C9: the greedy scheduler is deterministic on an unshuffled copy of the
group list, so every restart produces the identical result and the
multi-start search (any positive attempt bound, 20 by default) is equivalent
to a single greedy run. -/
theorem C9_multistart_equiv_single (dist : Coord → Coord → ℚ) (cluster : List Location)
    (daily_start daily_end : Nat) (n : Nat) (hn : 0 < n) :
    iterative_schedule_cluster dist cluster daily_start daily_end n
      = some (schedule_cluster_with_priorities dist cluster daily_start daily_end) := by
  unfold iterative_schedule_cluster
  rw [iterLoop_fst dist cluster daily_start daily_end n 0 hn]
  rfl

/-- C9 (witness): the default 20-attempt search on an empty group equals the
single greedy run. -/
theorem C9_witness :
    iterative_schedule_cluster (fun _ _ => 0) [] 480 1200 20
      = some (schedule_cluster_with_priorities (fun _ _ => 0) [] 480 1200) :=
  C9_multistart_equiv_single (fun _ _ => 0) [] 480 1200 20 (by omega)

/-- C10: the greedy group scheduler terminates and partitions its input:
the names of the scheduled entries together with the unvisitable locations
are a permutation of the input group's names (each location lands in exactly
one of the two lists), so the two lengths sum to the input length. -/
theorem C10_scheduler_partition (dist : Coord → Coord → ℚ) (cluster : List Location)
    (daily_start daily_end : Nat) :
    ((schedule_cluster_with_priorities dist cluster daily_start daily_end).schedule.map
        Entry.name ++
      (schedule_cluster_with_priorities dist cluster daily_start
          daily_end).unvisitable.map Location.name).Perm (cluster.map Location.name) ∧
    (schedule_cluster_with_priorities dist cluster daily_start daily_end).schedule.length +
      (schedule_cluster_with_priorities dist cluster daily_start
          daily_end).unvisitable.length = cluster.length := by
  have h := go_names dist daily_start daily_end cluster.length cluster [] [] daily_start
    (le_refl _)
  simp only [List.map_nil, List.nil_append, List.append_nil] at h
  refine ⟨h, ?_⟩
  have hlen := h.length_eq
  simpa using hlen

end App
